import Mathlib

/-!
Verification of the task-registry and orchestrator core of the
enterprise-ai-sdlc repository (Go).  The registry (pkg/task, file
registry.go) is embedded as an association list from task IDs to tasks;
every registry operation below is a direct translation of the
corresponding Go method.  The Go map m[k] is modelled by findTask,
assignment m[k] = v by insertTask, delete(m, k) by removeTask.
Stateful methods return a pair of the Go error result and the registry
state after the call, so that statements about failed calls leaving the
state unchanged are meaningful.

The Task type itself (task.go) and the quota package are not part of the
given sources; they are modelled from the specification and the unit
tests, and each such definition is marked accordingly.
-/

namespace Flo

/-- Status strings, as in the Go source (type Status = string with four
canonical constants). -/
def StatusPending : String := "pending"

/-- Status constant, see StatusPending. -/
def StatusInProgress : String := "in_progress"

/-- Status constant, see StatusPending. -/
def StatusComplete : String := "complete"

/-- Status constant, see StatusPending. -/
def StatusFailed : String := "failed"

/-- Modelled from the spec: the Task record of section 3 of the spec
(task.go is not among the given sources; the field list follows the spec
and the unit tests).  The two timestamp fields created_at and updated_at
are omitted: no claim under verification mentions them and they would
require an explicit clock.  The status field is a string, as in Go, so
invalid status values are representable. -/
structure Task where
  id : String
  title : String
  description : String := ""
  status : String := StatusPending
  deps : List String := []
  repo : String := ""
  priority : Int := 0
  model : String := ""
  fallback : String := ""
deriving DecidableEq, Repr

/-- Modelled from the spec: Status.IsValid, used by Task.Validate.  The
four valid values are those of the state machine of spec section 4.3 and
of TestStatusIsValid. -/
def Status.IsValid (s : String) : Bool :=
  s = StatusPending || s = StatusInProgress || s = StatusComplete || s = StatusFailed

def errIdEmpty : String := "task ID cannot be empty"

def errTitleEmpty : String := "task title cannot be empty"

def errInvalidStatus : String := "invalid status"

/-- Modelled from the spec: Task.Validate (task.go is not among the given
sources).  Checks, in the order fixed by the error cases of
TestTaskValidation: non-empty ID, non-empty title, valid status. -/
def Task.Validate (t : Task) : Except String Unit :=
  if t.id = "" then .error errIdEmpty
  else if t.title = "" then .error errTitleEmpty
  else if Status.IsValid t.status then .ok () else .error errInvalidStatus

/-- Modelled from the spec: the transition table of the per-task state
machine, spec section 4.3 and TestStatusTransitions: pending to
in_progress, in_progress to complete, in_progress to failed, failed to
pending are the only valid transitions. -/
def validTransition (source target : String) : Bool :=
  (source = StatusPending && target = StatusInProgress) ||
  (source = StatusInProgress && target = StatusComplete) ||
  (source = StatusInProgress && target = StatusFailed) ||
  (source = StatusFailed && target = StatusPending)

def errInvalidTransition : String := "invalid status transition"

/-- Modelled from the spec: Task.SetStatus (task.go is not among the given
sources).  On a valid transition the status is replaced (the Go method
also refreshes updated_at, omitted here); on an invalid one it fails and
the task is returned unchanged, mirroring that the Go method does not
mutate the receiver when it returns an error. -/
def Task.SetStatus (t : Task) (target : String) : Except String Unit × Task :=
  if validTransition t.status target then (.ok (), { t with status := target })
  else (.error errInvalidTransition, t)

/-- The registry state: the contents of the Go map tasks map[string]*Task,
as an association list. -/
abbrev Registry : Type := List (String × Task)

/-- Reading the Go map: m[id].  Returns the value of the first binding of
the key. -/
def findTask : Registry → String → Option Task
  | [], _ => none
  | (k, t) :: rest, id => if k = id then some t else findTask rest id

/-- Writing the Go map: m[id] = t.  Replaces the first binding of the key,
or appends a new binding. -/
def insertTask : Registry → String → Task → Registry
  | [], id, t => [(id, t)]
  | (k, u) :: rest, id, t =>
      if k = id then (id, t) :: rest else (k, u) :: insertTask rest id t

/-- Deleting from the Go map: delete(m, id). -/
def removeTask (m : Registry) (id : String) : Registry :=
  m.filter (fun p => !(p.1 = id))

theorem findTask_insertTask (m : Registry) (id : String) (t : Task) (x : String) :
    findTask (insertTask m id t) x = if x = id then some t else findTask m x := by
  induction m with
  | nil =>
    by_cases h : x = id
    · subst h
      simp [insertTask, findTask]
    · have h2 : ¬ (id = x) := fun hh => h hh.symm
      simp [insertTask, findTask, h, h2]
  | cons p rest ih =>
    obtain ⟨k, u⟩ := p
    by_cases hk : k = id
    · subst hk
      by_cases hx : x = k
      · subst hx
        simp [insertTask, findTask]
      · have hkx : ¬ (k = x) := fun hh => hx hh.symm
        simp [insertTask, findTask, hx, hkx]
    · by_cases hx : k = x
      · subst hx
        have hxid : ¬ (k = id) := hk
        simp [insertTask, findTask, hk, hxid]
      · simp [insertTask, findTask, hk, hx, ih]

theorem removeTask_cons (k : String) (u : Task) (rest : Registry) (id : String) :
    removeTask ((k, u) :: rest) id =
      if k = id then removeTask rest id else (k, u) :: removeTask rest id := by
  by_cases h : k = id <;> simp [removeTask, List.filter_cons, h]

theorem findTask_removeTask (m : Registry) (id : String) (x : String) :
    findTask (removeTask m id) x = if x = id then none else findTask m x := by
  induction m with
  | nil =>
    by_cases h : x = id <;> simp [removeTask, findTask, h]
  | cons p rest ih =>
    obtain ⟨k, u⟩ := p
    rw [removeTask_cons]
    by_cases hk : k = id
    · subst hk
      by_cases hx : x = k
      · subst hx
        simpa [findTask] using ih
      · have hkx : ¬ (k = x) := fun h => hx h.symm
        simpa [findTask, hx, hkx] using ih
    · by_cases hx : k = x
      · subst hx
        have hxid : ¬ (k = id) := hk
        simp [findTask, hk, hxid]
      · simpa [findTask, hk, hx] using ih

theorem mem_of_findTask {m : Registry} {id : String} {t : Task}
    (h : findTask m id = some t) : (id, t) ∈ m := by
  induction m with
  | nil => simp [findTask] at h
  | cons p rest ih =>
    obtain ⟨k, u⟩ := p
    by_cases hk : k = id
    · subst hk
      simp [findTask] at h
      simp [h]
    · simp [findTask, hk] at h
      exact List.mem_cons_of_mem _ (ih h)

theorem findTask_isSome_of_mem {m : Registry} {id : String} {t : Task}
    (h : (id, t) ∈ m) : (findTask m id).isSome := by
  induction m with
  | nil => simp at h
  | cons p rest ih =>
    obtain ⟨k, u⟩ := p
    rcases List.mem_cons.mp h with h1 | h2
    · cases h1
      simp [findTask]
    · by_cases hk : k = id
      · simp [findTask, hk]
      · simp [findTask, hk]
        exact ih h2

theorem findTask_eq_none_iff {m : Registry} {id : String} :
    findTask m id = none ↔ ∀ t, (id, t) ∉ m := by
  constructor
  · intro h t hmem
    have := findTask_isSome_of_mem hmem
    rw [h] at this
    simp at this
  · intro h
    cases hf : findTask m id with
    | none => rfl
    | some t => exact absurd (mem_of_findTask hf) (h t)

theorem mem_insertTask {m : Registry} {id : String} {t : Task} {p : String × Task}
    (h : p ∈ insertTask m id t) : p = (id, t) ∨ p ∈ m := by
  induction m with
  | nil => simpa [insertTask] using h
  | cons q rest ih =>
    obtain ⟨k, u⟩ := q
    by_cases hk : k = id
    · simp [insertTask, hk] at h
      rcases h with h | h
      · exact Or.inl h
      · exact Or.inr (List.mem_cons_of_mem _ h)
    · simp [insertTask, hk] at h
      rcases h with h | h
      · exact Or.inr (by simp [h])
      · rcases ih h with h2 | h2
        · exact Or.inl h2
        · exact Or.inr (List.mem_cons_of_mem _ h2)

theorem mem_of_mem_removeTask {m : Registry} {id : String} {p : String × Task}
    (h : p ∈ removeTask m id) : p ∈ m := by
  exact List.mem_of_mem_filter h

theorem mem_keys_iff {m : Registry} {k : String} :
    k ∈ m.map Prod.fst ↔ ∃ t, (k, t) ∈ m := by
  constructor
  · intro h
    rw [List.mem_map] at h
    obtain ⟨⟨a, b⟩, hp, he⟩ := h
    refine ⟨b, ?_⟩
    have ha : a = k := he
    rwa [ha] at hp
  · rintro ⟨t, hmem⟩
    rw [List.mem_map]
    exact ⟨(k, t), hmem, rfl⟩

/-- Measure for the termination of the recursive cycle check: the number
of distinct task IDs not yet visited. -/
def unvisitedCard (m : Registry) (visited : List String) : Nat :=
  ((m.map Prod.fst).toFinset.filter (fun k => k ∉ visited)).card

theorem unvisitedCard_cons_of_none {m : Registry} {d : String} {visited : List String}
    (h : findTask m d = none) :
    unvisitedCard m (d :: visited) = unvisitedCard m visited := by
  unfold unvisitedCard
  congr 1
  apply Finset.filter_congr
  intro x hx
  have hxk : x ∈ m.map Prod.fst := by simpa using hx
  have hxd : x ≠ d := by
    rintro rfl
    obtain ⟨t, hmem⟩ := mem_keys_iff.mp hxk
    exact absurd hmem (findTask_eq_none_iff.mp h t)
  simp [List.mem_cons, hxd]

theorem unvisitedCard_lt_of_some {m : Registry} {d : String} {t : Task}
    {visited : List String} (hf : findTask m d = some t) (hnv : d ∉ visited) :
    unvisitedCard m (d :: visited) < unvisitedCard m visited := by
  apply Finset.card_lt_card
  constructor
  · intro x hx
    simp only [Finset.mem_filter] at hx ⊢
    exact ⟨hx.1, fun hmem => hx.2 (List.mem_cons_of_mem _ hmem)⟩
  · intro hsub
    have hd : d ∈ (m.map Prod.fst).toFinset.filter (fun k => k ∉ visited) := by
      simp only [Finset.mem_filter, List.mem_toFinset]
      exact ⟨mem_keys_iff.mpr ⟨t, mem_of_findTask hf⟩, hnv⟩
    have := hsub hd
    simp only [Finset.mem_filter] at this
    exact this.2 (List.mem_cons_self d visited)

theorem unvisitedCard_lt_of_grow {m : Registry} {d : String} {t : Task}
    {visited v2 : List String} (hf : findTask m d = some t) (hnv : d ∉ visited)
    (hsub : (d :: visited) ⊆ v2) :
    unvisitedCard m v2 < unvisitedCard m visited := by
  apply Finset.card_lt_card
  constructor
  · intro x hx
    simp only [Finset.mem_filter] at hx ⊢
    refine ⟨hx.1, fun hmem => hx.2 (hsub (List.mem_cons_of_mem _ hmem))⟩
  · intro hsub2
    have hd : d ∈ (m.map Prod.fst).toFinset.filter (fun k => k ∉ visited) := by
      simp only [Finset.mem_filter, List.mem_toFinset]
      exact ⟨mem_keys_iff.mpr ⟨t, mem_of_findTask hf⟩, hnv⟩
    have := hsub2 hd
    simp only [Finset.mem_filter] at this
    exact this.2 (hsub (List.mem_cons_self d visited))

def errCircular (id : String) : String := "circular dependency detected: " ++ id

/-- The recursive body of Registry.checkCircularLocked from the Go source,
translated clause by clause.  The Go visited map is passed by reference
and mutated in place; here the updated visited set is returned on
success, packaged with the fact that it only grows (needed for
termination of the nested recursion).  The Go loop over deps becomes the
head and tail cases of the list; marking visited before the existence
check, skipping missing dependencies, and aborting as soon as the start
ID is seen all follow the source. -/
def checkCircularAux (m : Registry) (startId : String) :
    (deps : List String) → (visited : List String) →
    Except String { v : List String // visited ⊆ v }
  | [], visited => .ok ⟨visited, fun _ h => h⟩
  | depId :: rest, visited =>
    if depId = startId then .error (errCircular startId)
    else if hv : depId ∈ visited then
      checkCircularAux m startId rest visited
    else
      match hf : findTask m depId with
      | none =>
        match checkCircularAux m startId rest (depId :: visited) with
        | .error e => .error e
        | .ok ⟨v, hsub⟩ => .ok ⟨v, fun x hx => hsub (List.mem_cons_of_mem _ hx)⟩
      | some dep =>
        match checkCircularAux m startId dep.deps (depId :: visited) with
        | .error e => .error e
        | .ok ⟨v2, hsub2⟩ =>
          match checkCircularAux m startId rest v2 with
          | .error e => .error e
          | .ok ⟨v, hsub⟩ =>
            .ok ⟨v, fun x hx => hsub (hsub2 (List.mem_cons_of_mem _ hx))⟩
termination_by deps visited => (unvisitedCard m visited, deps.length)
decreasing_by
  · exact Prod.Lex.right _ (by simp)
  · rw [unvisitedCard_cons_of_none hf]
    exact Prod.Lex.right _ (by simp)
  · exact Prod.Lex.left _ _ (unvisitedCard_lt_of_some hf hv)
  · exact Prod.Lex.left _ _ (unvisitedCard_lt_of_grow hf hv hsub2)

/-- Registry.checkCircularLocked from the Go source: the caller-facing
result, with the final visited set discarded as in Go. -/
def Registry.checkCircularLocked (m : Registry) (startId : String)
    (deps : List String) (visited : List String) : Except String Unit :=
  match checkCircularAux m startId deps visited with
  | .error e => .error e
  | .ok _ => .ok ()

def errDepNotFound (d : String) : String := "dependency not found: " ++ d

/-- Registry.validateDepsLocked from the Go source: every entry of deps
must resolve in the registry; the first missing one is reported. -/
def Registry.validateDepsLocked (m : Registry) : List String → Except String Unit
  | [] => .ok ()
  | d :: rest =>
    match findTask m d with
    | none => .error (errDepNotFound d)
    | some _ => Registry.validateDepsLocked m rest

/-- Registry.allDepsCompleteLocked from the Go source: true when every
dependency resolves to a task whose status is complete. -/
def Registry.allDepsCompleteLocked (m : Registry) (t : Task) : Bool :=
  t.deps.all (fun d =>
    match findTask m d with
    | none => false
    | some dep => dep.status = StatusComplete)

/-- Registry.GetReady from the Go source: all pending tasks whose
dependencies are all complete. -/
def Registry.GetReady (m : Registry) : List Task :=
  (m.filter (fun p =>
    p.2.status = StatusPending && Registry.allDepsCompleteLocked m p.2)).map Prod.snd

/-- A Go slice of tasks: none is the nil slice, some is a non-nil slice
(possibly empty).  The distinction is observable in Go and the spec
speaks about it, so the embedding keeps it. -/
def goAppend (s : Option (List Task)) (t : Task) : Option (List Task) :=
  match s with
  | none => some [t]
  | some l => some (l ++ [t])

/-- Registry.List from the Go source (named ListAll here because the Go
method name would shadow the list type inside the Registry namespace):
starts from a non-nil empty slice made with make and appends every
task. -/
def Registry.ListAll (m : Registry) : Option (List Task) :=
  m.foldl (fun acc p => goAppend acc p.2) (some [])

/-- Registry.ListByStatus from the Go source: starts from a nil slice
(var tasks) and appends the matching tasks. -/
def Registry.ListByStatus (m : Registry) (status : String) : Option (List Task) :=
  m.foldl (fun acc p => if p.2.status = status then goAppend acc p.2 else acc) none

/-- Registry.ListByRepo from the Go source: starts from a nil slice and
appends the matching tasks. -/
def Registry.ListByRepo (m : Registry) (repo : String) : Option (List Task) :=
  m.foldl (fun acc p => if p.2.repo = repo then goAppend acc p.2 else acc) none

def errInvalidTask (e : String) : String := "invalid task: " ++ e

def errTaskExists (id : String) : String := "task already exists: " ++ id

def errTaskNotFound (id : String) : String := "task not found: " ++ id

def errHasDependents (id : String) : String := "cannot delete task with dependents: " ++ id

/-- Registry.Add from the Go source: validate, reject duplicate IDs,
validate dependencies, then store.  The returned registry is the map
state after the call; every error path leaves it untouched, as the Go
method only assigns to the map in its final statement. -/
def Registry.Add (m : Registry) (t : Task) : Except String Unit × Registry :=
  match t.Validate with
  | .error e => (.error (errInvalidTask e), m)
  | .ok _ =>
    match findTask m t.id with
    | some _ => (.error (errTaskExists t.id), m)
    | none =>
      match Registry.validateDepsLocked m t.deps with
      | .error e => (.error e, m)
      | .ok _ => (.ok (), insertTask m t.id t)

/-- Registry.Get from the Go source. -/
def Registry.Get (m : Registry) (id : String) : Except String Task :=
  match findTask m id with
  | none => .error (errTaskNotFound id)
  | some t => .ok t

/-- Registry.Update from the Go source: validate, require the ID to
exist, validate dependencies, run the circular-dependency check with a
fresh visited map, then store. -/
def Registry.Update (m : Registry) (t : Task) : Except String Unit × Registry :=
  match t.Validate with
  | .error e => (.error (errInvalidTask e), m)
  | .ok _ =>
    match findTask m t.id with
    | none => (.error (errTaskNotFound t.id), m)
    | some _ =>
      match Registry.validateDepsLocked m t.deps with
      | .error e => (.error e, m)
      | .ok _ =>
        match Registry.checkCircularLocked m t.id t.deps [] with
        | .error e => (.error e, m)
        | .ok _ => (.ok (), insertTask m t.id t)

/-- Registry.Delete from the Go source: require the ID to exist, reject
when any stored task lists it among its deps, then delete. -/
def Registry.Delete (m : Registry) (id : String) : Except String Unit × Registry :=
  match findTask m id with
  | none => (.error (errTaskNotFound id), m)
  | some _ =>
    if m.any (fun p => p.2.deps.contains id) then (.error (errHasDependents id), m)
    else (.ok (), removeTask m id)

/-- First pass of Registry.Load from the Go source: validate each task in
file order and install it without dependency checking.  An invalid task
aborts, leaving the partially filled map, as in Go. -/
def loadInstall : List Task → Registry → Except String Unit × Registry
  | [], acc => (.ok (), acc)
  | t :: rest, acc =>
    match t.Validate with
    | .error e => (.error (errInvalidTask e), acc)
    | .ok _ => loadInstall rest (insertTask acc t.id t)

/-- Second pass of Registry.Load from the Go source: validate every
stored dependency edge against the completed map. -/
def loadValidateDeps (full : Registry) : List (String × Task) → Except String Unit
  | [] => .ok ()
  | (_, t) :: rest =>
    match Registry.validateDepsLocked full t.deps with
    | .error e => .error e
    | .ok _ => loadValidateDeps full rest

/-- Registry.Load from the Go source, applied to the decoded task list
(file reading and JSON decoding are outside the embedding).  The previous
map contents are discarded, every task is validated and installed, then
every dependency edge is re-validated against the complete set.  There is
no cycle check in this method. -/
def Registry.Load (m : Registry) (tasks : List Task) : Except String Unit × Registry :=
  match loadInstall tasks [] with
  | (.error e, acc) => (.error e, acc)
  | (.ok _, acc) =>
    match loadValidateDeps acc acc with
    | .error e => (.error e, acc)
    | .ok _ => (.ok (), acc)

/-- One dependency edge of the stored graph: a depends on b. -/
def stepRel (m : Registry) (a b : String) : Prop :=
  ∃ t, findTask m a = some t ∧ b ∈ t.deps

/-- The dependency graph of the registry has no cycle. -/
def Acyclic (m : Registry) : Prop :=
  ∀ x, ¬ Relation.TransGen (stepRel m) x x

/-- Every deps entry of every stored task resolves to a stored task. -/
def DepsResolved (m : Registry) : Prop :=
  ∀ p, p ∈ m → ∀ d, d ∈ p.2.deps → (findTask m d).isSome

/-- The registry invariant of spec section 3. -/
def RegistryInv (m : Registry) : Prop := Acyclic m ∧ DepsResolved m

/-- A dependency path from x back to s whose inner nodes never leave
through s: the shape of path the depth-first check discovers. -/
inductive Reaches (m : Registry) (s : String) : String → Prop
  | refl : Reaches m s s
  | step {x y : String} {t : Task} (hx : x ≠ s) (hf : findTask m x = some t)
      (hy : y ∈ t.deps) (h : Reaches m s y) : Reaches m s x

theorem chk_cons_start (m : Registry) (s : String) (rest visited : List String) :
    checkCircularAux m s (s :: rest) visited = .error (errCircular s) := by
  simp [checkCircularAux]

theorem chk_cons_mem {m : Registry} {s depId : String} {rest visited : List String}
    (h1 : ¬ depId = s) (h2 : depId ∈ visited) :
    checkCircularAux m s (depId :: rest) visited = checkCircularAux m s rest visited := by
  simp [checkCircularAux, h1, h2]

theorem chk_cons_none {m : Registry} {s depId : String} {rest visited : List String}
    (h1 : ¬ depId = s) (h2 : depId ∉ visited) (hf : findTask m depId = none) :
    checkCircularAux m s (depId :: rest) visited =
      match checkCircularAux m s rest (depId :: visited) with
      | .error e => .error e
      | .ok ⟨v, hsub⟩ => .ok ⟨v, fun x hx => hsub (List.mem_cons_of_mem _ hx)⟩ := by
  conv_lhs => unfold checkCircularAux
  rw [if_neg h1, dif_neg h2]
  split
  · rfl
  · rename_i dep2 heq
    rw [hf] at heq
    cases heq

theorem chk_cons_some {m : Registry} {s depId : String} {rest visited : List String}
    {dep : Task} (h1 : ¬ depId = s) (h2 : depId ∉ visited)
    (hf : findTask m depId = some dep) :
    checkCircularAux m s (depId :: rest) visited =
      match checkCircularAux m s dep.deps (depId :: visited) with
      | .error e => .error e
      | .ok ⟨v2, hsub2⟩ =>
        match checkCircularAux m s rest v2 with
        | .error e => .error e
        | .ok ⟨v, hsub⟩ =>
          .ok ⟨v, fun x hx => hsub (hsub2 (List.mem_cons_of_mem _ hx))⟩ := by
  conv_lhs => unfold checkCircularAux
  rw [if_neg h1, dif_neg h2]
  split
  · rename_i heq
    rw [hf] at heq
    cases heq
  · rename_i dep2 heq
    rw [hf] at heq
    injection heq with h3
    subst h3
    rfl

theorem checkCircularAux_error_sound (m : Registry) (s : String) :
    ∀ (deps visited : List String),
      (∃ e, checkCircularAux m s deps visited = .error e) →
      ∃ d, d ∈ deps ∧ Reaches m s d := by
  intro deps visited
  induction deps, visited using checkCircularAux.induct m s with
  | case1 visited =>
    rintro ⟨e, h⟩
    simp [checkCircularAux] at h
  | case2 rest visited =>
    intro _
    exact ⟨s, List.mem_cons_self _ _, Reaches.refl⟩
  | case3 depId rest visited h1 h2 ih =>
    rintro ⟨e, h⟩
    rw [chk_cons_mem h1 h2] at h
    obtain ⟨d, hd, hr⟩ := ih ⟨e, h⟩
    exact ⟨d, List.mem_cons_of_mem _ hd, hr⟩
  | case4 depId rest visited h1 h2 hf e0 hrec ih =>
    intro _
    obtain ⟨d, hd, hr⟩ := ih ⟨e0, hrec⟩
    exact ⟨d, List.mem_cons_of_mem _ hd, hr⟩
  | case5 depId rest visited h1 h2 hf v hsub hrec ih =>
    rintro ⟨e, h⟩
    rw [chk_cons_none h1 h2 hf, hrec] at h
    cases h
  | case6 depId rest visited h1 h2 dep hf e0 hrec ih =>
    intro _
    obtain ⟨d, hd, hr⟩ := ih ⟨e0, hrec⟩
    exact ⟨depId, List.mem_cons_self _ _, Reaches.step h1 hf hd hr⟩
  | case7 depId rest visited h1 h2 dep hf v hsub hrec1 e0 hrec2 ih1 ih2 =>
    intro _
    obtain ⟨d, hd, hr⟩ := ih2 ⟨e0, hrec2⟩
    exact ⟨d, List.mem_cons_of_mem _ hd, hr⟩
  | case8 depId rest visited h1 h2 dep hf v hsub hrec1 v2 hsub2 hrec2 ih1 ih2 =>
    rintro ⟨e, h⟩
    rw [chk_cons_some h1 h2 hf, hrec1] at h
    simp only [hrec2] at h
    cases h

theorem checkCircularAux_ok_closure (m : Registry) (s : String) :
    ∀ (deps visited : List String) (v : { v : List String // visited ⊆ v }),
      checkCircularAux m s deps visited = .ok v →
      (∀ d ∈ deps, d ≠ s ∧ d ∈ v.val) ∧
      (∀ x ∈ v.val, x ∉ visited → ∀ t, findTask m x = some t →
        ∀ y ∈ t.deps, y ≠ s ∧ y ∈ v.val) := by
  intro deps visited
  induction deps, visited using checkCircularAux.induct m s with
  | case1 visited =>
    intro v h
    simp only [checkCircularAux] at h
    have hval : v.val = visited := by
      cases h
      rfl
    constructor
    · intro d hd
      simp at hd
    · intro x hx hnx
      rw [hval] at hx
      exact absurd hx hnx
  | case2 rest visited =>
    intro v h
    rw [chk_cons_start] at h
    cases h
  | case3 depId rest visited h1 h2 ih =>
    intro v h
    rw [chk_cons_mem h1 h2] at h
    obtain ⟨ha, hc⟩ := ih v h
    refine ⟨?_, hc⟩
    intro d hd
    rcases List.mem_cons.mp hd with rfl | hd2
    · exact ⟨h1, v.property h2⟩
    · exact ha d hd2
  | case4 depId rest visited h1 h2 hf e0 hrec ih =>
    intro v h
    rw [chk_cons_none h1 h2 hf, hrec] at h
    cases h
  | case5 depId rest visited h1 h2 hf v0 hsub hrec ih =>
    intro v h
    rw [chk_cons_none h1 h2 hf, hrec] at h
    have hval : v.val = v0 := by
      cases h
      rfl
    obtain ⟨ha, hc⟩ := ih ⟨v0, hsub⟩ hrec
    constructor
    · intro d hd
      rcases List.mem_cons.mp hd with rfl | hd2
      · exact ⟨h1, by rw [hval]; exact hsub (List.mem_cons_self _ _)⟩
      · obtain ⟨hne, hm⟩ := ha d hd2
        exact ⟨hne, by rw [hval]; exact hm⟩
    · intro x hx hnx t hft y hy
      rw [hval] at hx
      by_cases hxd : x = depId
      · subst hxd
        rw [hf] at hft
        cases hft
      · have hnx2 : x ∉ depId :: visited := by
          intro hmem
          rcases List.mem_cons.mp hmem with rfl | hmem2
          · exact hxd rfl
          · exact hnx hmem2
        obtain ⟨hne, hm⟩ := hc x hx hnx2 t hft y hy
        exact ⟨hne, by rw [hval]; exact hm⟩
  | case6 depId rest visited h1 h2 dep hf e0 hrec ih =>
    intro v h
    rw [chk_cons_some h1 h2 hf, hrec] at h
    cases h
  | case7 depId rest visited h1 h2 dep hf v0 hsub hrec1 e0 hrec2 ih1 ih2 =>
    intro v h
    rw [chk_cons_some h1 h2 hf, hrec1] at h
    simp only [hrec2] at h
    cases h
  | case8 depId rest visited h1 h2 dep hf v0 hsub0 hrec1 v1 hsub1 hrec2 ih1 ih2 =>
    intro v h
    rw [chk_cons_some h1 h2 hf, hrec1] at h
    simp only [hrec2] at h
    have hval : v.val = v1 := by
      cases h
      rfl
    obtain ⟨ha1, hc1⟩ := ih1 ⟨v0, hsub0⟩ hrec1
    obtain ⟨ha2, hc2⟩ := ih2 ⟨v1, hsub1⟩ hrec2
    constructor
    · intro d hd
      rcases List.mem_cons.mp hd with rfl | hd2
      · refine ⟨h1, ?_⟩
        rw [hval]
        exact hsub1 (hsub0 (List.mem_cons_self _ _))
      · obtain ⟨hne, hm⟩ := ha2 d hd2
        exact ⟨hne, by rw [hval]; exact hm⟩
    · intro x hx hnx t hft y hy
      rw [hval] at hx
      by_cases hx0 : x ∈ v0
      · by_cases hxd : x = depId
        · subst hxd
          rw [hf] at hft
          cases hft
          obtain ⟨hne, hm⟩ := ha1 y hy
          exact ⟨hne, by rw [hval]; exact hsub1 hm⟩
        · have hnx2 : x ∉ depId :: visited := by
            intro hmem
            rcases List.mem_cons.mp hmem with rfl | hmem2
            · exact hxd rfl
            · exact hnx hmem2
          obtain ⟨hne, hm⟩ := hc1 x hx0 hnx2 t hft y hy
          exact ⟨hne, by rw [hval]; exact hsub1 hm⟩
      · obtain ⟨hne, hm⟩ := hc2 x hx hx0 t hft y hy
        exact ⟨hne, by rw [hval]; exact hm⟩

theorem checkCircularAux_ok_no_reach {m : Registry} {s : String} {deps : List String}
    {v : { v : List String // ([] : List String) ⊆ v }}
    (h : checkCircularAux m s deps [] = .ok v) :
    ∀ d ∈ deps, ¬ Reaches m s d := by
  obtain ⟨ha, hc⟩ := checkCircularAux_ok_closure m s deps [] v h
  have aux : ∀ x, Reaches m s x → x ∈ v.val → x = s := by
    intro x hr
    induction hr with
    | refl => intro _; rfl
    | step hx hf hy hsteps ih =>
      intro hxv
      obtain ⟨hys, hyv⟩ := hc _ hxv (by simp) _ hf _ hy
      exact absurd (ih hyv) hys
  intro d hd hr
  obtain ⟨hne, hm⟩ := ha d hd
  exact hne (aux d hr hm)

theorem checkCircularAux_error_val (m : Registry) (s : String) :
    ∀ (deps visited : List String) (e : String),
      checkCircularAux m s deps visited = .error e → e = errCircular s := by
  intro deps visited
  induction deps, visited using checkCircularAux.induct m s with
  | case1 visited =>
    intro e h
    simp [checkCircularAux] at h
  | case2 rest visited =>
    intro e h
    rw [chk_cons_start] at h
    injection h with h2
    exact h2.symm
  | case3 depId rest visited h1 h2 ih =>
    intro e h
    rw [chk_cons_mem h1 h2] at h
    exact ih e h
  | case4 depId rest visited h1 h2 hf e0 hrec ih =>
    intro e h
    rw [chk_cons_none h1 h2 hf, hrec] at h
    injection h with h2
    rw [← h2]
    exact ih e0 hrec
  | case5 depId rest visited h1 h2 hf v0 hsub hrec ih =>
    intro e h
    rw [chk_cons_none h1 h2 hf, hrec] at h
    cases h
  | case6 depId rest visited h1 h2 dep hf e0 hrec ih =>
    intro e h
    rw [chk_cons_some h1 h2 hf, hrec] at h
    injection h with h2
    rw [← h2]
    exact ih e0 hrec
  | case7 depId rest visited h1 h2 dep hf v0 hsub hrec1 e0 hrec2 ih1 ih2 =>
    intro e h
    rw [chk_cons_some h1 h2 hf, hrec1] at h
    simp only [hrec2] at h
    injection h with h2
    rw [← h2]
    exact ih2 e0 hrec2
  | case8 depId rest visited h1 h2 dep hf v0 hsub0 hrec1 v1 hsub1 hrec2 ih1 ih2 =>
    intro e h
    rw [chk_cons_some h1 h2 hf, hrec1] at h
    simp only [hrec2] at h
    cases h

theorem checkCircularLocked_error_iff (m : Registry) (s : String) (deps : List String) :
    (∃ e, Registry.checkCircularLocked m s deps [] = .error e) ↔
      ∃ d, d ∈ deps ∧ Reaches m s d := by
  constructor
  · rintro ⟨e, h⟩
    unfold Registry.checkCircularLocked at h
    cases hc : checkCircularAux m s deps [] with
    | error e0 => exact checkCircularAux_error_sound m s deps [] ⟨e0, hc⟩
    | ok v =>
      rw [hc] at h
      cases h
  · rintro ⟨d, hd, hr⟩
    unfold Registry.checkCircularLocked
    cases hc : checkCircularAux m s deps [] with
    | error e0 => exact ⟨e0, rfl⟩
    | ok v => exact absurd hr (checkCircularAux_ok_no_reach hc d hd)

theorem findTask_insertTask_ne {m : Registry} {s : String} {t : Task} {x : String}
    (hx : x ≠ s) : findTask (insertTask m s t) x = findTask m x := by
  rw [findTask_insertTask]
  simp [hx]

theorem findTask_insertTask_self (m : Registry) (s : String) (t : Task) :
    findTask (insertTask m s t) s = some t := by
  rw [findTask_insertTask]
  simp

theorem reaches_to_rtg (m : Registry) (s : String) (t : Task) :
    ∀ x, Reaches m s x →
      Relation.ReflTransGen (stepRel (insertTask m s t)) x s := by
  intro x h
  induction h with
  | refl => exact Relation.ReflTransGen.refl
  | step hx hf hy hrest ih =>
    refine Relation.ReflTransGen.head ⟨_, ?_, hy⟩ ih
    rw [findTask_insertTask_ne hx]
    exact hf

theorem rtg_to_reaches (m : Registry) (s : String) (t : Task) :
    ∀ x, Relation.ReflTransGen (stepRel (insertTask m s t)) x s →
      Reaches m s x := by
  intro x h
  induction h using Relation.ReflTransGen.head_induction_on with
  | refl => exact Reaches.refl
  | @head a c hstep htail ih =>
    by_cases ha : a = s
    · subst ha
      exact Reaches.refl
    · obtain ⟨u, hfu, hyc⟩ := hstep
      rw [findTask_insertTask_ne ha] at hfu
      exact Reaches.step ha hfu hyc ih

theorem cycle_insert_iff (m : Registry) (s : String) (t : Task) :
    Relation.TransGen (stepRel (insertTask m s t)) s s ↔
      ∃ d, d ∈ t.deps ∧ Reaches m s d := by
  constructor
  · intro h
    obtain ⟨b, hsb, hbs⟩ := Relation.TransGen.head'_iff.mp h
    obtain ⟨u, hfu, hb⟩ := hsb
    rw [findTask_insertTask_self] at hfu
    injection hfu with hut
    subst hut
    exact ⟨b, hb, rtg_to_reaches m s t b hbs⟩
  · rintro ⟨d, hd, hr⟩
    exact Relation.TransGen.head'
      ⟨t, findTask_insertTask_self m s t, hd⟩ (reaches_to_rtg m s t d hr)

/-- An edge of the stored graph whose source is not s: such edges are
unaffected when the binding of s changes. -/
def stepAway (m : Registry) (s : String) (x y : String) : Prop :=
  stepRel m x y ∧ x ≠ s

theorem stepAway_sub_insert (m : Registry) (s : String) (t : Task) :
    ∀ {x y}, stepAway m s x y → stepRel (insertTask m s t) x y := by
  rintro x y ⟨⟨u, hf, hy⟩, hx⟩
  refine ⟨u, ?_, hy⟩
  rw [findTask_insertTask_ne hx]
  exact hf

theorem rtg_split (m : Registry) (s : String) (t : Task) {x y : String}
    (h : Relation.ReflTransGen (stepRel (insertTask m s t)) x y) :
    Relation.ReflTransGen (stepAway m s) x y ∨
      (Relation.ReflTransGen (stepAway m s) x s ∧
        Relation.ReflTransGen (stepRel (insertTask m s t)) s y) := by
  induction h using Relation.ReflTransGen.head_induction_on with
  | refl => exact Or.inl Relation.ReflTransGen.refl
  | @head a c hac hcy ih =>
    by_cases ha : a = s
    · have hh : Relation.ReflTransGen (stepRel (insertTask m s t)) a y :=
        Relation.ReflTransGen.head hac hcy
      rw [ha] at hh
      exact Or.inr ⟨by rw [ha], hh⟩
    · have hstep : stepAway m s a c := by
        obtain ⟨u, hfu, hc⟩ := hac
        rw [findTask_insertTask_ne ha] at hfu
        exact ⟨⟨u, hfu, hc⟩, ha⟩
      rcases ih with hl | ⟨h1, h2⟩
      · exact Or.inl (Relation.ReflTransGen.head hstep hl)
      · exact Or.inr ⟨Relation.ReflTransGen.head hstep h1, h2⟩

theorem acyclic_insert (m : Registry) (s : String) (t : Task) (hacyc : Acyclic m)
    (hnos : ¬ Relation.TransGen (stepRel (insertTask m s t)) s s) :
    Acyclic (insertTask m s t) := by
  intro x hcyc
  obtain ⟨y, hxy, hyx⟩ := Relation.TransGen.head'_iff.mp hcyc
  rcases rtg_split m s t hyx with hl | ⟨h1, h2⟩
  · by_cases hx : x = s
    · rw [hx] at hxy hl
      have hys : Relation.ReflTransGen (stepRel (insertTask m s t)) y s :=
        Relation.ReflTransGen.mono (fun a b hab => stepAway_sub_insert m s t hab) hl
      exact hnos (Relation.TransGen.head' hxy hys)
    · have hxy0 : stepRel m x y := by
        obtain ⟨u, hf, hy⟩ := hxy
        rw [findTask_insertTask_ne hx] at hf
        exact ⟨u, hf, hy⟩
      have hyx0 : Relation.ReflTransGen (stepRel m) y x :=
        Relation.ReflTransGen.mono (fun a b hab => hab.1) hl
      exact hacyc x (Relation.TransGen.head' hxy0 hyx0)
  · have hy1 : Relation.ReflTransGen (stepRel (insertTask m s t)) y s :=
      Relation.ReflTransGen.mono (fun a b hab => stepAway_sub_insert m s t hab) h1
    exact hnos (Relation.TransGen.trans_right h2
      (Relation.TransGen.head' hxy hy1))

theorem validateDeps_ok_resolved (m : Registry) :
    ∀ deps, Registry.validateDepsLocked m deps = .ok () →
      ∀ d ∈ deps, (findTask m d).isSome := by
  intro deps
  induction deps with
  | nil =>
    intro _ d hd
    simp at hd
  | cons a rest ih =>
    intro h d hd
    unfold Registry.validateDepsLocked at h
    cases hf : findTask m a with
    | none =>
      rw [hf] at h
      cases h
    | some u =>
      rw [hf] at h
      rcases List.mem_cons.mp hd with rfl | hd2
      · simp [hf]
      · exact ih h d hd2

theorem add_ok_inv {m : Registry} {t : Task} {m' : Registry}
    (h : Registry.Add m t = (.ok (), m')) :
    t.Validate = .ok () ∧ findTask m t.id = none ∧
      Registry.validateDepsLocked m t.deps = .ok () ∧
      m' = insertTask m t.id t := by
  unfold Registry.Add at h
  cases hv : t.Validate with
  | error e =>
    rw [hv] at h
    simp at h
  | ok u =>
    cases u
    rw [hv] at h
    cases hf : findTask m t.id with
    | some u2 =>
      rw [hf] at h
      simp at h
    | none =>
      rw [hf] at h
      cases hd : Registry.validateDepsLocked m t.deps with
      | error e =>
        rw [hd] at h
        simp at h
      | ok u3 =>
        cases u3
        rw [hd] at h
        simp at h
        exact ⟨rfl, rfl, rfl, h.symm⟩

theorem update_ok_inv {m : Registry} {t : Task} {m' : Registry}
    (h : Registry.Update m t = (.ok (), m')) :
    t.Validate = .ok () ∧ (∃ t0, findTask m t.id = some t0) ∧
      Registry.validateDepsLocked m t.deps = .ok () ∧
      Registry.checkCircularLocked m t.id t.deps [] = .ok () ∧
      m' = insertTask m t.id t := by
  unfold Registry.Update at h
  cases hv : t.Validate with
  | error e =>
    rw [hv] at h
    simp at h
  | ok u =>
    cases u
    rw [hv] at h
    cases hf : findTask m t.id with
    | none =>
      rw [hf] at h
      simp at h
    | some t0 =>
      rw [hf] at h
      cases hd : Registry.validateDepsLocked m t.deps with
      | error e =>
        rw [hd] at h
        simp at h
      | ok u3 =>
        cases u3
        rw [hd] at h
        cases hc : Registry.checkCircularLocked m t.id t.deps [] with
        | error e =>
          rw [hc] at h
          simp at h
        | ok u4 =>
          cases u4
          rw [hc] at h
          simp at h
          exact ⟨rfl, ⟨t0, rfl⟩, rfl, rfl, h.symm⟩

theorem delete_ok_inv {m : Registry} {id : String} {m' : Registry}
    (h : Registry.Delete m id = (.ok (), m')) :
    (∃ t0, findTask m id = some t0) ∧
      (m.any (fun p => p.2.deps.contains id)) = false ∧
      m' = removeTask m id := by
  unfold Registry.Delete at h
  cases hf : findTask m id with
  | none =>
    rw [hf] at h
    simp at h
  | some t0 =>
    rw [hf] at h
    cases ha : m.any (fun p => p.2.deps.contains id) with
    | true =>
      rw [ha] at h
      simp at h
    | false =>
      rw [ha] at h
      simp at h
      exact ⟨⟨t0, rfl⟩, rfl, h.symm⟩

theorem loadValidateDeps_ok {full : Registry} :
    ∀ l, loadValidateDeps full l = .ok () →
      ∀ p ∈ l, ∀ d ∈ p.2.deps, (findTask full d).isSome := by
  intro l
  induction l with
  | nil =>
    intro _ p hp
    simp at hp
  | cons q rest ih =>
    obtain ⟨k, u⟩ := q
    intro h p hp d hd
    unfold loadValidateDeps at h
    cases hv : Registry.validateDepsLocked full u.deps with
    | error e =>
      rw [hv] at h
      cases h
    | ok u2 =>
      cases u2
      rw [hv] at h
      rcases List.mem_cons.mp hp with rfl | hp2
      · exact validateDeps_ok_resolved full u.deps hv d hd
      · exact ih h p hp2 d hd

theorem load_ok_inv {m : Registry} {tasks : List Task} {m' : Registry}
    (h : Registry.Load m tasks = (.ok (), m')) :
    loadInstall tasks [] = (.ok (), m') ∧ loadValidateDeps m' m' = .ok () := by
  unfold Registry.Load at h
  split at h
  · simp at h
  · rename_i u acc heq
    split at h
    · simp at h
    · rename_i u2 hl
      simp at h
      cases u
      rw [← h]
      exact ⟨heq, hl⟩

theorem depsResolved_insert {m : Registry} {t : Task} (hres : DepsResolved m)
    (hval : ∀ d ∈ t.deps, (findTask m d).isSome) :
    DepsResolved (insertTask m t.id t) := by
  intro p hp d hd
  have hsome : (findTask m d).isSome ∨ d = t.id := by
    rcases mem_insertTask hp with rfl | hp2
    · exact Or.inl (hval d hd)
    · exact Or.inl (hres p hp2 d hd)
  rw [findTask_insertTask]
  by_cases hdt : d = t.id
  · simp [hdt]
  · simp only [if_neg hdt]
    rcases hsome with hs | hs
    · exact hs
    · exact absurd hs hdt

theorem reaches_missing_start {m : Registry} {s : String} (hres : DepsResolved m)
    (hnone : findTask m s = none) :
    ∀ x, Reaches m s x → ¬ (findTask m x).isSome := by
  intro x h
  induction h with
  | refl =>
    rw [hnone]
    simp
  | step hx hf hy hrest ih =>
    intro _
    exact ih (hres _ (mem_of_findTask hf) _ hy)

theorem add_preserves_inv {m : Registry} {t : Task} {m' : Registry}
    (hinv : RegistryInv m) (h : Registry.Add m t = (.ok (), m')) :
    RegistryInv m' := by
  obtain ⟨hv, hnone, hdeps, hm'⟩ := add_ok_inv h
  subst hm'
  have hval := validateDeps_ok_resolved m t.deps hdeps
  refine ⟨?_, depsResolved_insert hinv.2 hval⟩
  apply acyclic_insert m t.id t hinv.1
  intro hcyc
  obtain ⟨d, hd, hr⟩ := (cycle_insert_iff m t.id t).mp hcyc
  exact reaches_missing_start hinv.2 hnone d hr (hval d hd)

theorem update_preserves_inv {m : Registry} {t : Task} {m' : Registry}
    (hinv : RegistryInv m) (h : Registry.Update m t = (.ok (), m')) :
    RegistryInv m' := by
  obtain ⟨hv, ⟨t0, hsome⟩, hdeps, hchk, hm'⟩ := update_ok_inv h
  subst hm'
  have hval := validateDeps_ok_resolved m t.deps hdeps
  refine ⟨?_, depsResolved_insert hinv.2 hval⟩
  apply acyclic_insert m t.id t hinv.1
  intro hcyc
  obtain ⟨d, hd, hr⟩ := (cycle_insert_iff m t.id t).mp hcyc
  obtain ⟨e, he⟩ := (checkCircularLocked_error_iff m t.id t.deps).mpr ⟨d, hd, hr⟩
  rw [hchk] at he
  cases he

theorem delete_preserves_inv {m : Registry} {id : String} {m' : Registry}
    (hinv : RegistryInv m) (h : Registry.Delete m id = (.ok (), m')) :
    RegistryInv m' := by
  obtain ⟨⟨t0, hsome⟩, hany, hm'⟩ := delete_ok_inv h
  subst hm'
  constructor
  · intro x hcyc
    apply hinv.1 x
    refine Relation.TransGen.mono ?_ hcyc
    rintro a b ⟨u, hf, hb⟩
    rw [findTask_removeTask] at hf
    by_cases ha : a = id
    · rw [if_pos ha] at hf
      cases hf
    · rw [if_neg ha] at hf
      exact ⟨u, hf, hb⟩
  · intro p hp d hd
    have hpm : p ∈ m := mem_of_mem_removeTask hp
    have hnc := List.any_eq_false.mp hany p hpm
    have hnid : id ∉ p.2.deps := by simpa using hnc
    have hdne : d ≠ id := by
      intro hdi
      rw [hdi] at hd
      exact hnid hd
    rw [findTask_removeTask, if_neg hdne]
    exact hinv.2 p hpm d hd

theorem load_resolved {m : Registry} {tasks : List Task} {m' : Registry}
    (h : Registry.Load m tasks = (.ok (), m')) : DepsResolved m' := by
  obtain ⟨hi, hl⟩ := load_ok_inv h
  intro p hp d hd
  exact loadValidateDeps_ok m' hl p hp d hd

theorem acyclic_nil : Acyclic ([] : Registry) := by
  intro x h
  obtain ⟨y, hxy, hyx⟩ := Relation.TransGen.head'_iff.mp h
  obtain ⟨t, hf, hy⟩ := hxy
  simp [findTask] at hf

/-- ASCII lowering of one character, the restriction of strings.ToLower
used by isQuotaError (all four needles are ASCII). -/
def lowerChar (c : Char) : Char :=
  if ('A' ≤ c && c ≤ 'Z') then Char.ofNat (c.toNat + 32) else c

/-- strings.ToLower from the Go standard library, restricted to ASCII. -/
def lowerAscii (s : String) : String := String.mk (s.data.map lowerChar)

/-- strings.Contains from the Go standard library: sub occurs as a
contiguous substring of s. -/
def goContains (s sub : String) : Bool := decide (List.IsInfix sub.data s.data)

def needle429 : String := "429"

def needleRateLimit : String := "rate limit"

def needleQuota : String := "quota"

def needleTooMany : String := "too many requests"

/-- isQuotaError from cmd/flo/cmd/work.go: nil errors are never quota
errors; otherwise the lowered error text is scanned for the four
needles. -/
def isQuotaError (err : Option String) : Bool :=
  match err with
  | none => false
  | some msg =>
    let errStr := lowerAscii msg
    goContains errStr needle429 || goContains errStr needleRateLimit ||
      goContains errStr needleQuota || goContains errStr needleTooMany

/-- The spec-side reading of a case-insensitive occurrence: some
contiguous substring of hay agrees with needle letter by letter once both
are lowered. -/
def ContainsCI (hay needle : String) : Prop :=
  ∃ t : List Char, List.IsInfix t hay.data ∧ t.map lowerChar = needle.data.map lowerChar

theorem map_eq_append_split {α β : Type} {f : α → β} :
    ∀ {l : List α} {p q : List β}, l.map f = p ++ q →
      ∃ lp lq, l = lp ++ lq ∧ lp.map f = p ∧ lq.map f = q := by
  intro l
  induction l with
  | nil =>
    intro p q h
    rw [List.map_nil] at h
    obtain ⟨hp, hq⟩ := List.append_eq_nil.mp h.symm
    exact ⟨[], [], rfl, by simp [hp], by simp [hq]⟩
  | cons a l ih =>
    intro p q h
    cases p with
    | nil =>
      exact ⟨[], a :: l, rfl, rfl, by simpa using h⟩
    | cons pb pt =>
      rw [List.map_cons] at h
      injection h with h1 h2
      obtain ⟨lp, lq, hl, hlp, hlq⟩ := ih h2
      exact ⟨a :: lp, lq, by rw [hl, List.cons_append], by rw [List.map_cons, h1, hlp], hlq⟩

theorem infix_map_iff {α β : Type} {f : α → β} {l : List α} {n : List β} :
    List.IsInfix n (l.map f) ↔ ∃ t, List.IsInfix t l ∧ t.map f = n := by
  constructor
  · rintro ⟨p, q, hpq⟩
    obtain ⟨lp, lrest, hl1, hlp, hrest⟩ := map_eq_append_split (l := l) (p := p)
      (q := n ++ q) (by rw [← hpq, List.append_assoc])
    obtain ⟨lt, lq, hl2, hlt, hlq⟩ := map_eq_append_split (l := lrest) (p := n)
      (q := q) hrest
    refine ⟨lt, ⟨lp, lq, ?_⟩, hlt⟩
    rw [hl1, hl2, List.append_assoc]
  · rintro ⟨t, ⟨p, q, hpq⟩, ht⟩
    refine ⟨p.map f, q.map f, ?_⟩
    rw [← ht, ← List.map_append, ← List.map_append, hpq]

theorem goContains_lower_iff (msg needle : String)
    (hneedle : needle.data.map lowerChar = needle.data) :
    goContains (lowerAscii msg) needle = true ↔ ContainsCI msg needle := by
  unfold goContains lowerAscii ContainsCI
  rw [decide_eq_true_iff]
  constructor
  · intro h
    obtain ⟨t, hinf, ht⟩ := infix_map_iff.mp h
    exact ⟨t, hinf, by rw [ht, hneedle]⟩
  · rintro ⟨t, hinf, ht⟩
    apply infix_map_iff.mpr
    exact ⟨t, hinf, by rw [ht, hneedle]⟩

/-- Modelled from the spec: the per-backend usage record of spec section
3 (the quota package is not among the given sources).  Times are natural
numbers in an arbitrary unit. -/
structure Usage where
  requests : Nat := 0
  tokens : Nat := 0
  lastRequest : Nat := 0
  isExhausted : Bool := false
  retryAfter : Nat := 0
deriving DecidableEq, Repr

/-- Modelled from the spec: the quota tracker state, a map from backend
name to usage record plus the configured limits (quota package not in
the sources; persistence path omitted). -/
structure Tracker where
  usage : List (String × Usage) := []
  limits : List (String × Nat) := []
deriving DecidableEq, Repr

def findUsage : List (String × Usage) → String → Option Usage
  | [], _ => none
  | (k, u) :: rest, b => if k = b then some u else findUsage rest b

def insertUsage : List (String × Usage) → String → Usage → List (String × Usage)
  | [], b, u => [(b, u)]
  | (k, w) :: rest, b, u =>
      if k = b then (b, u) :: rest else (k, w) :: insertUsage rest b u

def findLimit : List (String × Nat) → String → Option Nat
  | [], _ => none
  | (k, n) :: rest, b => if k = b then some n else findLimit rest b

theorem findUsage_insertUsage (l : List (String × Usage)) (b : String) (u : Usage)
    (x : String) :
    findUsage (insertUsage l b u) x = if x = b then some u else findUsage l x := by
  induction l with
  | nil =>
    by_cases h : x = b
    · subst h
      simp [insertUsage, findUsage]
    · have h2 : ¬ (b = x) := fun hh => h hh.symm
      simp [insertUsage, findUsage, h, h2]
  | cons p rest ih =>
    obtain ⟨k, w⟩ := p
    by_cases hk : k = b
    · subst hk
      by_cases hx : x = k
      · subst hx
        simp [insertUsage, findUsage]
      · have hkx : ¬ (k = x) := fun hh => hx hh.symm
        simp [insertUsage, findUsage, hx, hkx]
    · by_cases hx : k = x
      · subst hx
        have hxid : ¬ (k = b) := hk
        simp [insertUsage, findUsage, hk, hxid]
      · simp [insertUsage, findUsage, hk, hx, ih]

/-- Modelled from the spec: IsExhausted of the quota tracker, spec
section 4.2: true only when previously marked exhausted and retry_after
has not yet elapsed; a backend with no record is never exhausted. -/
def Tracker.IsExhausted (tr : Tracker) (now : Nat) (backend : String) : Bool :=
  match findUsage tr.usage backend with
  | none => false
  | some u => u.isExhausted && decide (now < u.retryAfter)

def windowSize : Nat := 3600

/-- Modelled from the spec: Record of the quota tracker, spec section
4.2: bump requests and tokens, stamp last_request, and mark exhausted
with retry_after now plus the window size when the increment crosses the
configured limit (no configured limit: never exhausted by count). -/
def Tracker.Record (tr : Tracker) (now : Nat) (backend : String) (tokens : Nat) :
    Tracker :=
  let u := (findUsage tr.usage backend).getD {}
  let u2 := { u with
    requests := u.requests + 1
    tokens := u.tokens + tokens
    lastRequest := now }
  let u3 :=
    match findLimit tr.limits backend with
    | some lim =>
      if lim ≤ u2.requests then
        { u2 with isExhausted := true, retryAfter := now + windowSize }
      else u2
    | none => u2
  { tr with usage := insertUsage tr.usage backend u3 }

/-- Modelled from the spec: RecordError of the quota tracker, spec
section 4.2: mark the backend exhausted for blockDuration regardless of
the counters. -/
def Tracker.RecordError (tr : Tracker) (now : Nat) (backend : String)
    (blockDuration : Nat) : Tracker :=
  let u := (findUsage tr.usage backend).getD {}
  let u2 := { u with isExhausted := true, retryAfter := now + blockDuration }
  { tr with usage := insertUsage tr.usage backend u2 }

def insertLimitAux : List (String × Nat) → String → Nat → List (String × Nat)
  | [], b, n => [(b, n)]
  | (k, w) :: rest, b, n =>
      if k = b then (b, n) :: rest else (k, w) :: insertLimitAux rest b n

/-- Modelled from the spec: SetLimit of the quota tracker. -/
def Tracker.SetLimit (tr : Tracker) (backend : String) (lim : Nat) : Tracker :=
  { tr with limits := insertLimitAux tr.limits backend lim }

def requestsOf (tr : Tracker) (b : String) : Nat :=
  ((findUsage tr.usage b).getD {}).requests

def exhaustedOf (tr : Tracker) (b : String) : Bool :=
  ((findUsage tr.usage b).getD {}).isExhausted

/-- agent.Result from the Go source (Success, Output, Error). -/
structure Result where
  success : Bool
  output : String := ""
  error : String := ""
deriving DecidableEq, Repr

def backendClaude : String := "claude"

def backendCopilot : String := "copilot"

def hourDuration : Nat := 3600

def errQuotaExhausted (backend : String) : String :=
  "quota exhausted for backend " ++ backend

def errUnknownBackend (backend : String) : String := "unknown backend: " ++ backend

/-- runBackend from cmd/flo/cmd/work.go.  The external effects (MCP
config generation, backend.Start, CreateSession, session.Run) are
abstracted into the exec oracle; each of those call sites applies the
same guard in the source - on error, RecordError when the error is a
quota error - so the three guarded sites collapse into one here.  The
backend switch admits exactly claude and copilot.  On success, usage is
recorded against the called backend with the 10000-token estimate from
the source. -/
def runBackend (exec : String → String → Except String Result) (tr : Tracker)
    (now : Nat) (backendName model : String) : Except String Result × Tracker :=
  if Tracker.IsExhausted tr now backendName = true then
    (.error (errQuotaExhausted backendName), tr)
  else if backendName = backendClaude ∨ backendName = backendCopilot then
    match exec backendName model with
    | .error e =>
      if isQuotaError (some e) = true then
        (.error e, Tracker.RecordError tr now backendName hourDuration)
      else (.error e, tr)
    | .ok res =>
      if res.success then (.ok res, Tracker.Record tr now backendName 10000)
      else (.ok res, tr)
  else (.error (errUnknownBackend backendName), tr)

def slashChar : Char := '/'

/-- strings.Split on the slash separator, on the character list of the
string: every separator occurrence starts a new segment, and the empty
string yields one empty segment, as in Go. -/
def splitOnSlash : List Char → List (List Char)
  | [] => [[]]
  | c :: rest =>
    match splitOnSlash rest with
    | [] => [[c]]
    | h :: t => if c = slashChar then [] :: h :: t else (c :: h) :: t

/-- The parse of a backend slash model routing field: strings.Split on a
slash with exactly two parts, as used for the model and fallback
fields. -/
def splitSlash (s : String) : Option (String × String) :=
  match splitOnSlash s.data with
  | [a, b] => some (String.mk a, String.mk b)
  | _ => none

/-- runWithFailover from cmd/flo/cmd/work.go: run the primary backend;
when that fails with a quota error and the task declares a fallback that
parses as backend slash model, record the error against the primary
backend and run the fallback once.  Any other shape of fallback, or any
non-quota error, returns the primary outcome unchanged. -/
def runWithFailover (exec : String → String → Except String Result) (tr : Tracker)
    (now : Nat) (t : Task) (backendName model : String) :
    Except String Result × Tracker :=
  let r1 := runBackend exec tr now backendName model
  match r1.1 with
  | .ok res => (.ok res, r1.2)
  | .error e =>
    if isQuotaError (some e) = true then
      if t.fallback = "" then (.error e, r1.2)
      else
        match splitSlash t.fallback with
        | some (fb, fm) =>
          runBackend exec (Tracker.RecordError r1.2 now backendName hourDuration)
            now fb fm
        | none => (.error e, r1.2)
    else (.error e, r1.2)

/-- The observable outcome of the work command: the final task record and
the error the command returns to its caller. -/
structure WorkOutcome where
  task : Task
  cmdError : Option String
deriving DecidableEq, Repr

def errAgentFailed (e : String) : String := "agent failed: " ++ e

/-- The tail of workCmd.RunE from cmd/flo/cmd/work.go: classify the
outcome of runWithFailover.  A Go error is wrapped as agent failed and
returned, with no status change; a result with Success false moves the
task to failed (ignoring the SetStatus error, as the source does) and
returns nil; a successful result returns nil. -/
def finalizeWork (t : Task) (outcome : Except String Result) : WorkOutcome :=
  match outcome with
  | .error e => { task := t, cmdError := some (errAgentFailed e) }
  | .ok res =>
    if res.success then { task := t, cmdError := none }
    else { task := (Task.SetStatus t StatusFailed).2, cmdError := none }

/-- workCmd.RunE from the claim step onward: claim the task by moving it
to in_progress (aborting on an invalid transition, as the source
returns that error), run with failover, then classify. -/
def runEWork (exec : String → String → Except String Result) (tr : Tracker)
    (now : Nat) (t : Task) (backendName model : String) : WorkOutcome × Tracker :=
  match Task.SetStatus t StatusInProgress with
  | (.error e, t1) => ({ task := t1, cmdError := some e }, tr)
  | (.ok _, t1) =>
    let r := runWithFailover exec tr now t1 backendName model
    (finalizeWork t1 r.1, r.2)

theorem allDepsComplete_iff (m : Registry) (t : Task) :
    Registry.allDepsCompleteLocked m t = true ↔
      ∀ d ∈ t.deps, ∃ dt, findTask m d = some dt ∧ dt.status = StatusComplete := by
  unfold Registry.allDepsCompleteLocked
  rw [List.all_eq_true]
  constructor
  · intro h d hd
    have h2 := h d hd
    cases hf : findTask m d with
    | none =>
      rw [hf] at h2
      cases h2
    | some dt =>
      rw [hf] at h2
      exact ⟨dt, rfl, by simpa using h2⟩
  · intro h d hd
    obtain ⟨dt, hf, hs⟩ := h d hd
    rw [hf]
    simpa using hs

theorem mem_getReady_iff (m : Registry) (t : Task) :
    t ∈ Registry.GetReady m ↔
      (∃ id, (id, t) ∈ m) ∧ t.status = StatusPending ∧
        ∀ d ∈ t.deps, ∃ dt, findTask m d = some dt ∧ dt.status = StatusComplete := by
  unfold Registry.GetReady
  rw [List.mem_map]
  constructor
  · rintro ⟨p, hp, rfl⟩
    rw [List.mem_filter] at hp
    obtain ⟨hmem, hcond⟩ := hp
    simp only [Bool.and_eq_true, decide_eq_true_eq] at hcond
    refine ⟨⟨p.1, ?_⟩, hcond.1, (allDepsComplete_iff m p.2).mp hcond.2⟩
    rw [Prod.mk.eta]
    exact hmem
  · rintro ⟨⟨id, hmem⟩, hst, hdeps⟩
    refine ⟨(id, t), ?_, rfl⟩
    rw [List.mem_filter]
    refine ⟨hmem, ?_⟩
    simp only [Bool.and_eq_true, decide_eq_true_eq]
    exact ⟨hst, (allDepsComplete_iff m t).mpr hdeps⟩

theorem foldl_goAppend_some (l : Registry) :
    ∀ acc : List Task,
      l.foldl (fun a p => goAppend a p.2) (some acc) = some (acc ++ l.map Prod.snd) := by
  induction l with
  | nil =>
    intro acc
    simp
  | cons p rest ih =>
    intro acc
    rw [List.foldl_cons]
    show rest.foldl (fun a p => goAppend a p.2) (goAppend (some acc) p.2) = _
    rw [show goAppend (some acc) p.2 = some (acc ++ [p.2]) from rfl, ih]
    simp

theorem listByStatus_no_match (m : Registry) (status : String)
    (h : ∀ p ∈ m, ¬ p.2.status = status) :
    Registry.ListByStatus m status = none := by
  unfold Registry.ListByStatus
  induction m with
  | nil => rfl
  | cons p rest ih =>
    rw [List.foldl_cons, if_neg (h p (List.mem_cons_self _ _))]
    exact ih fun q hq => h q (List.mem_cons_of_mem _ hq)

theorem listByRepo_no_match (m : Registry) (repo : String)
    (h : ∀ p ∈ m, ¬ p.2.repo = repo) :
    Registry.ListByRepo m repo = none := by
  unfold Registry.ListByRepo
  induction m with
  | nil => rfl
  | cons p rest ih =>
    rw [List.foldl_cons, if_neg (h p (List.mem_cons_self _ _))]
    exact ih fun q hq => h q (List.mem_cons_of_mem _ hq)

theorem requestsOf_recordError (tr : Tracker) (now : Nat) (b : String) (d : Nat)
    (x : String) :
    requestsOf (Tracker.RecordError tr now b d) x = requestsOf tr x := by
  unfold requestsOf Tracker.RecordError
  simp only [findUsage_insertUsage]
  by_cases h : x = b
  · subst h
    simp
  · simp [h]

theorem exhaustedOf_recordError_self (tr : Tracker) (now : Nat) (b : String) (d : Nat) :
    exhaustedOf (Tracker.RecordError tr now b d) b = true := by
  unfold exhaustedOf Tracker.RecordError
  simp [findUsage_insertUsage]

theorem isExhausted_recordError_other (tr : Tracker) (now now2 : Nat) (b : String)
    (d : Nat) (x : String) (hx : x ≠ b) :
    Tracker.IsExhausted (Tracker.RecordError tr now b d) now2 x =
      Tracker.IsExhausted tr now2 x := by
  unfold Tracker.IsExhausted Tracker.RecordError
  simp only [findUsage_insertUsage, if_neg hx]

theorem exhaustedOf_record_other (tr : Tracker) (now : Nat) (b : String) (tok : Nat)
    (x : String) (hx : x ≠ b) :
    exhaustedOf (Tracker.Record tr now b tok) x = exhaustedOf tr x := by
  unfold exhaustedOf Tracker.Record
  simp only [findUsage_insertUsage, if_neg hx]

theorem requestsOf_record_self (tr : Tracker) (now : Nat) (b : String) (tok : Nat) :
    requestsOf (Tracker.Record tr now b tok) b = requestsOf tr b + 1 := by
  unfold requestsOf Tracker.Record
  simp only [findUsage_insertUsage, if_pos rfl]
  cases hl : findLimit tr.limits b with
  | none => simp
  | some lim =>
    by_cases hle : lim ≤ ((findUsage tr.usage b).getD {}).requests + 1
    · simp [hle]
    · simp [hle]

/-- Claim C1: GetReady returns exactly the stored tasks whose status is
pending and all of whose dependencies resolve to complete tasks; a
pending stored task with no dependencies is always in the set. -/
theorem getReady_exact (m : Registry) (t : Task) :
    (t ∈ Registry.GetReady m ↔
      (∃ id, (id, t) ∈ m) ∧ t.status = StatusPending ∧
        ∀ d ∈ t.deps, ∃ dt, findTask m d = some dt ∧ dt.status = StatusComplete) ∧
    (t.deps = [] → t.status = StatusPending → (∃ id, (id, t) ∈ m) →
      t ∈ Registry.GetReady m) := by
  refine ⟨mem_getReady_iff m t, ?_⟩
  intro hdeps hst hmem
  refine (mem_getReady_iff m t).mpr ⟨hmem, hst, ?_⟩
  intro d hd
  rw [hdeps] at hd
  cases hd

def taskNoDeps : Task := { id := "A", title := "first" }

theorem getReady_exact_witness :
    taskNoDeps.deps = [] ∧ taskNoDeps.status = StatusPending ∧
      taskNoDeps ∈ Registry.GetReady [(taskNoDeps.id, taskNoDeps)] := by
  refine ⟨rfl, rfl, (getReady_exact [(taskNoDeps.id, taskNoDeps)] taskNoDeps).2 rfl rfl
    ⟨taskNoDeps.id, List.mem_cons_self _ _⟩⟩

/-- Claim C10: a stored task with a dependency entry that does not
resolve in the registry is never in the ready set. -/
theorem dangling_dep_never_ready (m : Registry) (id : String) (t : Task) (d : String)
    (hmem : (id, t) ∈ m) (hd : d ∈ t.deps) (hdangling : findTask m d = none) :
    t ∉ Registry.GetReady m := by
  intro hready
  obtain ⟨_, _, hdeps⟩ := (mem_getReady_iff m t).mp hready
  obtain ⟨dt, hf, _⟩ := hdeps d hd
  rw [hdangling] at hf
  cases hf

def ghostId : String := "ghost"

def taskDangling : Task := { id := "B", title := "second", deps := [ghostId] }

theorem dangling_dep_never_ready_witness :
    (taskDangling.id, taskDangling) ∈ [(taskDangling.id, taskDangling)] ∧
      taskDangling ∉ Registry.GetReady [(taskDangling.id, taskDangling)] := by
  refine ⟨List.mem_cons_self _ _, ?_⟩
  refine dangling_dep_never_ready _ taskDangling.id taskDangling ghostId
    (List.mem_cons_self _ _) (List.mem_cons_self _ _) ?_
  rfl

/-- Claim C4: SetStatus succeeds exactly on the four transitions of the
state machine, sets the new status on success, and fails with the
invalid-transition error leaving the task unchanged otherwise. -/
theorem validTransition_iff (a b : String) :
    validTransition a b = true ↔
      ((a = StatusPending ∧ b = StatusInProgress) ∨
       (a = StatusInProgress ∧ b = StatusComplete) ∨
       (a = StatusInProgress ∧ b = StatusFailed) ∨
       (a = StatusFailed ∧ b = StatusPending)) := by
  unfold validTransition
  simp only [Bool.or_eq_true, Bool.and_eq_true, decide_eq_true_eq]
  tauto

theorem setStatus_spec (t : Task) (target : String) :
    ((Task.SetStatus t target).1 = .ok () ↔
      ((t.status = StatusPending ∧ target = StatusInProgress) ∨
       (t.status = StatusInProgress ∧ target = StatusComplete) ∨
       (t.status = StatusInProgress ∧ target = StatusFailed) ∨
       (t.status = StatusFailed ∧ target = StatusPending))) ∧
    ((Task.SetStatus t target).1 = .ok () →
      ((Task.SetStatus t target).2).status = target) ∧
    (∀ e, (Task.SetStatus t target).1 = .error e →
      e = errInvalidTransition ∧ (Task.SetStatus t target).2 = t) := by
  by_cases hv : validTransition t.status target = true
  · have hpair : Task.SetStatus t target = (.ok (), { t with status := target }) := by
      unfold Task.SetStatus
      rw [if_pos hv]
    refine ⟨⟨fun _ => (validTransition_iff _ _).mp hv, fun _ => by rw [hpair]⟩,
      fun _ => by rw [hpair], fun e he => ?_⟩
    rw [hpair] at he
    cases he
  · have hpair : Task.SetStatus t target = (.error errInvalidTransition, t) := by
      unfold Task.SetStatus
      rw [if_neg hv]
    refine ⟨⟨fun h => ?_, fun h => ?_⟩, fun h => ?_, fun e he => ?_⟩
    · rw [hpair] at h
      cases h
    · exact absurd ((validTransition_iff _ _).mpr h) hv
    · rw [hpair] at h
      cases h
    · rw [hpair] at he
      injection he with he2
      exact ⟨he2.symm, by rw [hpair]⟩

def taskPendingW : Task := { id := "W", title := "w" }

theorem setStatus_spec_witness :
    (Task.SetStatus taskPendingW StatusInProgress).1 = .ok () :=
  (setStatus_spec taskPendingW StatusInProgress).1.mpr
    (Or.inl ⟨rfl, rfl⟩)

/-- Claim C8: a failed Add or Update leaves the registry contents
exactly as they were. -/
theorem failed_add_update_unchanged (m : Registry) (t : Task) (e : String) :
    ((Registry.Add m t).1 = .error e → (Registry.Add m t).2 = m) ∧
    ((Registry.Update m t).1 = .error e → (Registry.Update m t).2 = m) := by
  constructor
  · intro h
    unfold Registry.Add at h ⊢
    cases hv : t.Validate with
    | error e2 => rfl
    | ok u =>
      cases u
      rw [hv] at h
      cases hf : findTask m t.id with
      | some u2 => rfl
      | none =>
        rw [hf] at h
        cases hd : Registry.validateDepsLocked m t.deps with
        | error e3 => rfl
        | ok u3 =>
          cases u3
          rw [hd] at h
          cases h
  · intro h
    unfold Registry.Update at h ⊢
    cases hv : t.Validate with
    | error e2 => rfl
    | ok u =>
      cases u
      rw [hv] at h
      cases hf : findTask m t.id with
      | none => rfl
      | some u2 =>
        rw [hf] at h
        cases hd : Registry.validateDepsLocked m t.deps with
        | error e3 => rfl
        | ok u3 =>
          cases u3
          rw [hd] at h
          cases hc : Registry.checkCircularLocked m t.id t.deps [] with
          | error e4 => rfl
          | ok u4 =>
            cases u4
            rw [hc] at h
            cases h

def taskDupA : Task := { id := "A", title := "dup" }

theorem failed_add_update_unchanged_witness :
    (Registry.Add [(taskNoDeps.id, taskNoDeps)] taskDupA).1 =
        .error (errTaskExists taskDupA.id) ∧
      (Registry.Add [(taskNoDeps.id, taskNoDeps)] taskDupA).2 =
        [(taskNoDeps.id, taskNoDeps)] := by
  refine ⟨rfl, ?_⟩
  exact (failed_add_update_unchanged [(taskNoDeps.id, taskNoDeps)] taskDupA
    (errTaskExists taskDupA.id)).1 rfl

/-- Counterexample for claim C9: with one pending task stored,
ListByStatus for the complete status matches nothing and returns the nil
slice, not a non-nil empty one. -/
theorem listByStatus_returns_nil :
    Registry.ListByStatus [(taskNoDeps.id, taskNoDeps)] StatusComplete = none ∧
      ∀ l : List Task,
        Registry.ListByStatus [(taskNoDeps.id, taskNoDeps)] StatusComplete ≠ some l := by
  refine ⟨rfl, ?_⟩
  intro l h
  cases h

/-- Claim C9 amended: List always returns a non-nil slice holding every
task; ListByStatus and ListByRepo are pure queries that return the nil
slice when nothing matches. -/
theorem list_queries_empty_behavior (m : Registry) (status repo : String) :
    Registry.ListAll m = some (m.map Prod.snd) ∧
    ((∀ p ∈ m, ¬ p.2.status = status) → Registry.ListByStatus m status = none) ∧
    ((∀ p ∈ m, ¬ p.2.repo = repo) → Registry.ListByRepo m repo = none) := by
  refine ⟨?_, listByStatus_no_match m status, listByRepo_no_match m repo⟩
  unfold Registry.ListAll
  rw [foldl_goAppend_some m []]
  simp

def repoIos : String := "ios"

theorem list_queries_empty_behavior_witness :
    Registry.ListAll [(taskNoDeps.id, taskNoDeps)] = some [taskNoDeps] ∧
      Registry.ListByRepo [(taskNoDeps.id, taskNoDeps)] repoIos = none := by
  obtain ⟨h1, h2, h3⟩ :=
    list_queries_empty_behavior [(taskNoDeps.id, taskNoDeps)] StatusComplete repoIos
  refine ⟨h1, h3 ?_⟩
  intro p hp
  rw [List.mem_singleton] at hp
  rw [hp]
  decide

theorem checkCircularLocked_error_val {m : Registry} {s : String}
    {deps visited : List String} {e : String}
    (h : Registry.checkCircularLocked m s deps visited = .error e) :
    e = errCircular s := by
  unfold Registry.checkCircularLocked at h
  cases hc : checkCircularAux m s deps visited with
  | error e0 =>
    rw [hc] at h
    injection h with h2
    rw [← h2]
    exact checkCircularAux_error_val m s deps visited e0 hc
  | ok v =>
    rw [hc] at h
    cases h

/-- Claim C3: once the earlier Update checks pass (valid task, existing
ID, resolving deps), Update fails with the circular-dependency error
exactly when the written deps set closes a dependency path from the
task back to itself in the updated graph; the check is the depth-first
walk checkCircularLocked from the task with a fresh visited set. -/
theorem update_circular_iff (m : Registry) (t : Task)
    (hv : t.Validate = .ok ())
    (hex : ∃ t0, findTask m t.id = some t0)
    (hdeps : Registry.validateDepsLocked m t.deps = .ok ()) :
    (Registry.Update m t).1 = .error (errCircular t.id) ↔
      Relation.TransGen (stepRel (insertTask m t.id t)) t.id t.id := by
  obtain ⟨t0, hf⟩ := hex
  have hred : (Registry.Update m t).1 =
      (match Registry.checkCircularLocked m t.id t.deps [] with
       | .error e => (.error e : Except String Unit)
       | .ok _ => .ok ()) := by
    unfold Registry.Update
    simp only [hv, hf, hdeps]
    cases Registry.checkCircularLocked m t.id t.deps [] with
    | error e => rfl
    | ok u => rfl
  cases hc : Registry.checkCircularLocked m t.id t.deps [] with
  | error e =>
    simp only [hc] at hred
    constructor
    · intro _
      exact (cycle_insert_iff m t.id t).mpr
        ((checkCircularLocked_error_iff m t.id t.deps).mp ⟨e, hc⟩)
    · intro _
      rw [hred, checkCircularLocked_error_val hc]
  | ok u =>
    cases u
    simp only [hc] at hred
    constructor
    · intro h
      rw [hred] at h
      cases h
    · intro hcyc
      obtain ⟨d, hd, hr⟩ := (cycle_insert_iff m t.id t).mp hcyc
      obtain ⟨e, he⟩ := (checkCircularLocked_error_iff m t.id t.deps).mpr ⟨d, hd, hr⟩
      rw [hc] at he
      cases he

def chainTaskA : Task := { id := "A", title := "a" }

def chainTaskB : Task := { id := "B", title := "b", deps := ["A"] }

def chainTaskC : Task := { id := "C", title := "c", deps := ["B"] }

def regChain : Registry :=
  [("A", chainTaskA), ("B", chainTaskB), ("C", chainTaskC)]

def updTaskA : Task := { id := "A", title := "a", deps := ["C"] }

theorem update_circular_iff_witness :
    (Registry.Update regChain updTaskA).1 = .error (errCircular updTaskA.id) := by
  apply (update_circular_iff regChain updTaskA rfl ⟨chainTaskA, rfl⟩ rfl).mpr
  have e1 : stepRel (insertTask regChain updTaskA.id updTaskA) updTaskA.id
      chainTaskC.id := ⟨updTaskA, by rfl, by decide⟩
  have e2 : stepRel (insertTask regChain updTaskA.id updTaskA) chainTaskC.id
      chainTaskB.id := ⟨chainTaskC, by rfl, by decide⟩
  have e3 : stepRel (insertTask regChain updTaskA.id updTaskA) chainTaskB.id
      updTaskA.id := ⟨chainTaskB, by rfl, by decide⟩
  exact Relation.TransGen.head e1 (Relation.TransGen.head e2 (Relation.TransGen.single e3))

/-- Counterexample for claim C2: Load validates only that dependencies
resolve and never runs the cycle check, so a snapshot containing the
two-cycle A depends on B, B depends on A loads successfully and leaves a
cyclic dependency graph in the registry. -/
def cycTaskA : Task := { id := "A", title := "a", deps := ["B"] }

def cycTaskB : Task := { id := "B", title := "b", deps := ["A"] }

/-- Counterexample for claim C2, see cycTaskA. -/
theorem load_accepts_cycle :
    (Registry.Load [] [cycTaskA, cycTaskB]).1 = .ok () ∧
      ¬ Acyclic (Registry.Load [] [cycTaskA, cycTaskB]).2 := by
  constructor
  · rfl
  · intro hacyc
    apply hacyc cycTaskA.id
    have e1 : stepRel (Registry.Load [] [cycTaskA, cycTaskB]).2 cycTaskA.id
        cycTaskB.id := ⟨cycTaskA, by rfl, by decide⟩
    have e2 : stepRel (Registry.Load [] [cycTaskA, cycTaskB]).2 cycTaskB.id
        cycTaskA.id := ⟨cycTaskB, by rfl, by decide⟩
    exact Relation.TransGen.head e1 (Relation.TransGen.single e2)

/-- Claim C2 amended: from any state satisfying the invariant, every
successful Add, Update and Delete yields a state whose dependency graph
is acyclic with every deps entry resolving; a successful Load guarantees
that every deps entry resolves, but not acyclicity, since Load performs
no cycle check. -/
theorem registry_invariant_preservation (m : Registry) (hinv : RegistryInv m) :
    (∀ t m', Registry.Add m t = (.ok (), m') → RegistryInv m') ∧
    (∀ t m', Registry.Update m t = (.ok (), m') → RegistryInv m') ∧
    (∀ id m', Registry.Delete m id = (.ok (), m') → RegistryInv m') ∧
    (∀ (m0 : Registry) (tasks : List Task) (m' : Registry),
      Registry.Load m0 tasks = (.ok (), m') → DepsResolved m') := by
  refine ⟨?_, ?_, ?_, ?_⟩
  · intro t m' h
    exact add_preserves_inv hinv h
  · intro t m' h
    exact update_preserves_inv hinv h
  · intro id m' h
    exact delete_preserves_inv hinv h
  · intro m0 tasks m' h
    exact load_resolved h

theorem registry_invariant_preservation_witness :
    RegistryInv [(taskNoDeps.id, taskNoDeps)] := by
  have hnil : RegistryInv ([] : Registry) := by
    refine ⟨acyclic_nil, ?_⟩
    intro p hp
    simp at hp
  exact (registry_invariant_preservation [] hnil).1 taskNoDeps
    [(taskNoDeps.id, taskNoDeps)] rfl

theorem requestsOf_record_other (tr : Tracker) (now : Nat) (b : String) (tok : Nat)
    (x : String) (hx : x ≠ b) :
    requestsOf (Tracker.Record tr now b tok) x = requestsOf tr x := by
  unfold requestsOf Tracker.Record
  simp only [findUsage_insertUsage, if_neg hx]

/-- Claim C6: an error counts as a quota-exhaustion signal exactly when
it is non-nil and its text contains a case-insensitive occurrence of one
of the four needles 429, rate limit, quota, too many requests. -/
theorem isQuotaError_iff (err : Option String) :
    isQuotaError err = true ↔
      ∃ s, err = some s ∧
        (ContainsCI s needle429 ∨ ContainsCI s needleRateLimit ∨
         ContainsCI s needleQuota ∨ ContainsCI s needleTooMany) := by
  cases err with
  | none => simp [isQuotaError]
  | some msg =>
    have h1 : needle429.data.map lowerChar = needle429.data := by decide
    have h2 : needleRateLimit.data.map lowerChar = needleRateLimit.data := by decide
    have h3 : needleQuota.data.map lowerChar = needleQuota.data := by decide
    have h4 : needleTooMany.data.map lowerChar = needleTooMany.data := by decide
    unfold isQuotaError
    simp only [Bool.or_eq_true]
    rw [goContains_lower_iff msg needle429 h1, goContains_lower_iff msg needleRateLimit h2,
        goContains_lower_iff msg needleQuota h3, goContains_lower_iff msg needleTooMany h4]
    constructor
    · intro h
      exact ⟨msg, rfl, by tauto⟩
    · rintro ⟨s, hs, h⟩
      injection hs with hs2
      subst hs2
      tauto

/-- Claim C5: when the primary call fails with a quota signal and the
task declares a well-formed fallback, the orchestrator marks the primary
backend exhausted, retries once against the fallback backend on its own,
and on fallback success returns that success with the usage request
recorded against the fallback backend while the primary request counter
is untouched. -/
theorem failover_on_quota (exec : String → String → Except String Result)
    (tr : Tracker) (now : Nat) (t : Task) (primary model fb fm : String)
    (e : String) (r : Result)
    (hne : ¬ t.fallback = "")
    (hsplit : splitSlash t.fallback = some (fb, fm))
    (hprimval : primary = backendClaude ∨ primary = backendCopilot)
    (hprimexh : Tracker.IsExhausted tr now primary = false)
    (hexec : exec primary model = .error e)
    (hquota : isQuotaError (some e) = true)
    (hfbval : fb = backendClaude ∨ fb = backendCopilot)
    (hfbne : fb ≠ primary)
    (hfbexh : Tracker.IsExhausted tr now fb = false)
    (hfbexec : exec fb fm = .ok r)
    (hsucc : r.success = true) :
    (runWithFailover exec tr now t primary model).1 = .ok r ∧
      exhaustedOf (runWithFailover exec tr now t primary model).2 primary = true ∧
      requestsOf (runWithFailover exec tr now t primary model).2 fb =
        requestsOf tr fb + 1 ∧
      requestsOf (runWithFailover exec tr now t primary model).2 primary =
        requestsOf tr primary := by
  have hrb1 : runBackend exec tr now primary model =
      (.error e, Tracker.RecordError tr now primary hourDuration) := by
    unfold runBackend
    have hnotex : ¬ (Tracker.IsExhausted tr now primary = true) := by
      rw [hprimexh]
      simp
    rw [if_neg hnotex, if_pos hprimval]
    simp only [hexec, hquota, if_true]
  have hfb2 : Tracker.IsExhausted
      (Tracker.RecordError (Tracker.RecordError tr now primary hourDuration) now
        primary hourDuration) now fb = false := by
    rw [isExhausted_recordError_other _ _ _ _ _ _ hfbne,
        isExhausted_recordError_other _ _ _ _ _ _ hfbne]
    exact hfbexh
  have hrb2 : runBackend exec
      (Tracker.RecordError (Tracker.RecordError tr now primary hourDuration) now
        primary hourDuration) now fb fm =
      (.ok r, Tracker.Record
        (Tracker.RecordError (Tracker.RecordError tr now primary hourDuration) now
          primary hourDuration) now fb 10000) := by
    unfold runBackend
    have hnotex2 : ¬ (Tracker.IsExhausted
        (Tracker.RecordError (Tracker.RecordError tr now primary hourDuration) now
          primary hourDuration) now fb = true) := by
      rw [hfb2]
      simp
    rw [if_neg hnotex2, if_pos hfbval]
    simp only [hfbexec, hsucc, if_true]
  have hrw : runWithFailover exec tr now t primary model =
      (.ok r, Tracker.Record
        (Tracker.RecordError (Tracker.RecordError tr now primary hourDuration) now
          primary hourDuration) now fb 10000) := by
    unfold runWithFailover
    simp only [hrb1, hquota, if_true, if_neg hne, hsplit, hrb2]
  rw [hrw]
  have hpf : primary ≠ fb := fun h => hfbne h.symm
  refine ⟨rfl, ?_, ?_, ?_⟩
  · rw [exhaustedOf_record_other _ _ _ _ _ hpf]
    exact exhaustedOf_recordError_self _ _ _ _
  · rw [requestsOf_record_self, requestsOf_recordError, requestsOf_recordError]
  · rw [requestsOf_record_other _ _ _ _ _ hpf, requestsOf_recordError,
      requestsOf_recordError]

def errRateDemo : String := "rate limit exceeded"

def resOkDemo : Result := { success := true }

def execFailoverDemo : String → String → Except String Result :=
  fun b _ => if b = backendClaude then .error errRateDemo else .ok resOkDemo

def taskFallbackDemo : Task := { id := "T5", title := "t5", fallback := "copilot/gpt-4" }

def modelSonnet : String := "sonnet"

def modelGpt4 : String := "gpt-4"

theorem failover_on_quota_witness :
    (runWithFailover execFailoverDemo {} 0 taskFallbackDemo backendClaude
        modelSonnet).1 = .ok resOkDemo ∧
      exhaustedOf (runWithFailover execFailoverDemo {} 0 taskFallbackDemo
        backendClaude modelSonnet).2 backendClaude = true ∧
      requestsOf (runWithFailover execFailoverDemo {} 0 taskFallbackDemo
        backendClaude modelSonnet).2 backendCopilot =
        requestsOf {} backendCopilot + 1 ∧
      requestsOf (runWithFailover execFailoverDemo {} 0 taskFallbackDemo
        backendClaude modelSonnet).2 backendClaude =
        requestsOf {} backendClaude :=
  failover_on_quota execFailoverDemo {} 0 taskFallbackDemo backendClaude
    modelSonnet backendCopilot modelGpt4 errRateDemo resOkDemo
    (by decide) (by decide) (Or.inl rfl) rfl rfl (by decide) (Or.inr rfl)
    (by decide) rfl rfl rfl

def errBoom : String := "backend exploded"

def execBoom : String → String → Except String Result := fun _ _ => .error errBoom

def taskWork7 : Task := { id := "T7", title := "t7" }

def noModel : String := ""

/-- Counterexample for claim C7: a dispatched task whose backend run ends
in a non-quota error with no declared fallback is left in_progress, not
moved to failed; only the error is surfaced. -/
theorem work_error_leaves_in_progress :
    ((runEWork execBoom {} 0 taskWork7 backendClaude noModel).1).task.status =
        StatusInProgress ∧
      ¬ ((runEWork execBoom {} 0 taskWork7 backendClaude noModel).1).task.status =
        StatusFailed ∧
      ((runEWork execBoom {} 0 taskWork7 backendClaude noModel).1).cmdError =
        some (errAgentFailed errBoom) := by
  decide

/-- Claim C7 amended: after the work command claims a pending task, a
run that ends in a Go error (non-quota failure, missing or failed
fallback) surfaces that error to the caller and leaves the task
in_progress; only a run that returns a Result with Success false moves
the task to failed, and then the command returns no error. -/
theorem work_failure_handling (exec : String → String → Except String Result)
    (tr : Tracker) (now : Nat) (t : Task) (b mo : String)
    (hpend : t.status = StatusPending) :
    (∀ e, (runWithFailover exec tr now ({ t with status := StatusInProgress }) b
        mo).1 = .error e →
      ((runEWork exec tr now t b mo).1).task.status = StatusInProgress ∧
      ¬ ((runEWork exec tr now t b mo).1).task.status = StatusFailed ∧
      ((runEWork exec tr now t b mo).1).cmdError = some (errAgentFailed e)) ∧
    (∀ r, (runWithFailover exec tr now ({ t with status := StatusInProgress }) b
        mo).1 = .ok r → r.success = false →
      ((runEWork exec tr now t b mo).1).task.status = StatusFailed ∧
      ((runEWork exec tr now t b mo).1).cmdError = none) := by
  have hvt : validTransition t.status StatusInProgress = true := by
    rw [hpend]
    decide
  have hclaim : Task.SetStatus t StatusInProgress =
      (.ok (), { t with status := StatusInProgress }) := by
    unfold Task.SetStatus
    rw [if_pos hvt]
  have hrun : runEWork exec tr now t b mo =
      (finalizeWork ({ t with status := StatusInProgress })
        (runWithFailover exec tr now ({ t with status := StatusInProgress }) b mo).1,
       (runWithFailover exec tr now ({ t with status := StatusInProgress }) b mo).2) := by
    unfold runEWork
    simp only [hclaim]
  constructor
  · intro e he
    rw [hrun]
    unfold finalizeWork
    simp only [he]
    exact ⟨trivial, by decide, trivial⟩
  · intro r hr hfail
    rw [hrun]
    unfold finalizeWork
    simp only [hr, hfail]
    have hvt2 : validTransition StatusInProgress StatusFailed = true := by decide
    constructor
    · show ((Task.SetStatus ({ t with status := StatusInProgress }) StatusFailed).2).status =
        StatusFailed
      unfold Task.SetStatus
      rw [if_pos (by rw [show ({ t with status := StatusInProgress } : Task).status =
        StatusInProgress from rfl]; exact hvt2)]
    · rfl

theorem work_failure_handling_witness :
    ((runEWork execBoom {} 0 taskWork7 backendClaude noModel).1).cmdError =
      some (errAgentFailed errBoom) :=
  ((work_failure_handling execBoom {} 0 taskWork7 backendClaude noModel rfl).1 errBoom
    (by rfl)).2.2

end Flo
